import Mathlib

/-
A verification development for the flow rich-text component: a shallow
embedding of the `FlowDocument` document model and the `Caret` selection
controller, with the backing merge-tree sequence store modelled as a list of
segments.  Marker identity is modelled by segment ids (for the id-indexed
lookups) and by list indices (for object identity); the end-of-document
sentinel segment (`undefined` in the source) is modelled as `none`.
-/

namespace FlowSpec

/-- Marker ids (`begin-<id>` / `end-<id>`), as character lists. -/
abbrev SegId := List Char

/-- The segment kinds distinguished by `getDocSegmentKind`: text carries its
content; begin/end tag markers carry their generated id, and begin markers
additionally carry the tag list. -/
inductive SegKind where
  | text (content : List Char)
  | paragraph
  | lineBreak
  | inclusion
  | beginTags (id : SegId) (tags : List String)
  | endTags (id : SegId)
deriving DecidableEq, Repr

/-- A segment of the shared string: its kind plus the CSS `classList`
property from its property set (`none` when the property is absent). -/
structure Seg where
  kind : SegKind
  classList : Option String := none
deriving DecidableEq, Repr

/-- The length a segment contributes to the sequence: text counts one unit
per character, every tile/marker counts one unit. -/
def segLen (s : Seg) : Nat :=
  match s.kind with
  | .text c => c.length
  | _ => 1

/-- `FlowDocument.length`: the total length of the sequence. -/
def docLength (doc : List Seg) : Nat := (doc.map segLen).sum

/-- The marker id stored under `reservedMarkerIdKey` (text and plain tiles
carry no id in this model). -/
def getId (s : Seg) : Option SegId :=
  match s.kind with
  | .beginTags i _ => some i
  | .endTags i => some i
  | _ => none

/-- `DocSegmentKind`, including the special `endOfText` kind reported for the
end-of-document sentinel. -/
inductive DocSegmentKind where
  | text
  | paragraph
  | lineBreak
  | beginTags
  | inclusion
  | endTags
  | endOfText
deriving DecidableEq, Repr

/-- `getDocSegmentKind`: the sentinel (`none`) maps to `endOfText`, otherwise
the kind is read off the segment. -/
def getDocSegmentKind : Option Seg → DocSegmentKind
  | none => .endOfText
  | some s =>
    match s.kind with
    | .text _ => .text
    | .paragraph => .paragraph
    | .lineBreak => .lineBreak
    | .inclusion => .inclusion
    | .beginTags _ _ => .beginTags
    | .endTags _ => .endTags

/-- The store's containing-segment lookup: for a position `p` strictly inside
the sequence, the index of the segment containing `p` together with the
offset of `p` inside it. -/
def containingIdx : List Seg → Nat → Option (Nat × Nat)
  | [], _ => none
  | s :: rest, p =>
    if p < segLen s then some (0, p)
    else (containingIdx rest (p - segLen s)).map (fun io => (io.1 + 1, io.2))

/-- The position at which the segment with index `i` starts. -/
def posIdx (doc : List Seg) (i : Nat) : Nat := docLength (doc.take i)

/-- `FlowDocument.getSegmentAndOffset`, with segment identity modelled as the
index into the sequence: `p = length` yields the end-of-document sentinel
(`none`), otherwise the store's containing-segment lookup. -/
def positionToSegmentOffset (doc : List Seg) (p : Nat) : Option Nat × Nat :=
  if p = docLength doc then (none, 0)
  else
    match containingIdx doc p with
    | some io => (some io.1, io.2)
    | none => (none, 0)

/-- `FlowDocument.getPosition`: the sentinel (`none`) maps to the current
length, otherwise the store's position lookup for the segment. -/
def segmentToPosition (doc : List Seg) : Option Nat → Nat
  | none => docLength doc
  | some i => posIdx doc i

/-- `FlowDocument.getSegmentAndOffset` returning the segment value itself
(`none` is the end-of-document sentinel, the source's `undefined`). -/
def getSegmentAndOffset (doc : List Seg) (p : Nat) : Option Seg × Nat :=
  let r := positionToSegmentOffset doc p
  (r.1.bind (fun i => doc.get? i), r.2)

/-- The merge tree's `idToSegment` index, returning the position of the first
segment carrying the given marker id (`none` when absent). -/
def findIdPos : List Seg → SegId → Option Nat
  | [], _ => none
  | s :: rest, i =>
    if getId s = some i then some 0
    else (findIdPos rest i).map (· + segLen s)

/-- `FlowDocument.getEnd` followed by `getPosition`: the matching end marker's
id is obtained by replacing the `begin` prefix (5 characters) with `end`;
when the lookup misses, the resulting `undefined` segment is the
end-of-document sentinel, whose position is the document length. -/
def endPosForBegin (doc : List Seg) (bid : SegId) : Nat :=
  (findIdPos doc (['e', 'n', 'd'] ++ bid.drop 5)).getD (docLength doc)

/-- `FlowDocument.getStart` followed by `getPosition`: the matching begin
marker's id replaces the `end` prefix (3 characters) with `begin`; a missed
lookup again resolves to the document length. -/
def beginPosForEnd (doc : List Seg) (eid : SegId) : Nat :=
  (findIdPos doc (['b', 'e', 'g', 'i', 'n'] ++ eid.drop 3)).getD (docLength doc)

/-- One step of `FlowDocument.visitRange` / `mergeTree.mapRange`: the
position-ordered list of `(position, segment)` pairs for the segments
overlapping `[s, e)`, starting the position count at `pos`. -/
def visitFrom : List Seg → Nat → Nat → Nat → List (Nat × Seg)
  | [], _, _, _ => []
  | sg :: rest, pos, s, e =>
    (if pos < e ∧ s < pos + segLen sg then [(pos, sg)] else []) ++
      visitFrom rest (pos + segLen sg) s e

/-- `FlowDocument.visitRange(callback, s, e)`: an empty or invalid range is
not traversed at all (the early exit in the source). -/
def visitList (doc : List Seg) (s e : Nat) : List (Nat × Seg) :=
  if s < e then visitFrom doc 0 s e else []

/-- `IMergeTreeRemoveMsg` as produced by `createRemoveRangeOp(pos1, pos2)`. -/
structure RemoveOp where
  pos1 : Nat
  pos2 : Nat
deriving DecidableEq, Repr

/-- The comparator `(left, right) => right.pos1 - left.pos1`: descending
order of start positions. -/
def opGE (a b : RemoveOp) : Prop := b.pos1 ≤ a.pos1

instance : DecidableRel opGE := fun a b => Nat.decLe b.pos1 a.pos1

instance : IsTotal RemoveOp opGE := ⟨fun a b => Nat.le_total b.pos1 a.pos1⟩

instance : IsTrans RemoveOp opGE := ⟨fun _ _ _ h1 h2 => Nat.le_trans h2 h1⟩

/-- Two removal ops act on disjoint ranges `[pos1, pos2)`. -/
def opDisjoint (a b : RemoveOp) : Prop := min a.pos2 b.pos2 ≤ max a.pos1 b.pos1

instance : DecidableRel opDisjoint := fun a b =>
  Nat.decLe (min a.pos2 b.pos2) (max a.pos1 b.pos1)

/-- The scan inside `FlowDocument.remove`: walk the visited segments in
position order, threading the active `start` and the accumulated op list.
A begin tag whose matching end tag does not fall inside the removed range
additionally schedules a one-unit removal of that end tag; an end tag whose
matching begin tag is excluded from the range flushes a removal up to the
marker and advances the active `start` past it. -/
def removeScan (doc : List Seg) (e : Nat) :
    List (Nat × Seg) → Nat → List RemoveOp → List RemoveOp × Nat
  | [], s, ops => (ops, s)
  | (p, sg) :: rest, s, ops =>
    match sg.kind with
    | .beginTags bid _ =>
      let endPos := endPosForBegin doc bid
      if endPos < e then removeScan doc e rest s ops
      else removeScan doc e rest s (ops ++ [⟨endPos, endPos + 1⟩])
    | .endTags eid =>
      let startPos := beginPosForEnd doc eid
      if s ≤ startPos then removeScan doc e rest s ops
      else removeScan doc e rest (p + 1) (ops ++ [⟨s, p⟩])
    | _ => removeScan doc e rest s ops

/-- `FlowDocument.remove` before the final sort: the scan's ops, followed by
a removal of the remaining `[start, end)` when that range is non-empty. -/
def removeOpsPre (doc : List Seg) (s e : Nat) : List RemoveOp :=
  let r := removeScan doc e (visitList doc s e) s []
  if r.2 ≠ e then r.1 ++ [⟨r.2, e⟩] else r.1

/-- The op list submitted by `FlowDocument.remove(s, e)`: the accumulated
ops sorted in descending order of their start position. -/
def removeOps (doc : List Seg) (s e : Nat) : List RemoveOp :=
  List.insertionSort opGE (removeOpsPre doc s e)

/-- `MergeTreeDeltaType` (only the variants this model exercises). -/
inductive MergeTreeDeltaType where
  | GROUP
  | INSERT
  | REMOVE
deriving DecidableEq, Repr

/-- The single grouped message handed to `sharedString.groupOperation` at the
end of `FlowDocument.remove`. -/
structure RemoveGroupMsg where
  ops : List RemoveOp
  deltaType : MergeTreeDeltaType
deriving DecidableEq, Repr

/-- `FlowDocument.remove(s, e)` submits exactly one group operation holding
all accumulated removal ops. -/
def removeGroup (doc : List Seg) (s e : Nat) : RemoveGroupMsg :=
  ⟨removeOps doc s e, .GROUP⟩

/-- Applying a single removal op `[a, b)` to the sequence: text segments are
trimmed (and dropped when emptied), zero-width markers are dropped when the
range covers their unit. -/
def removeInDoc : List Seg → Nat → Nat → List Seg
  | [], _, _ => []
  | sg :: rest, a, b =>
    (match sg.kind with
      | .text c =>
        let c2 := c.take (min a c.length) ++ c.drop (min b c.length)
        if c2 = [] then [] else [⟨.text c2, sg.classList⟩]
      | _ => if a = 0 ∧ 1 ≤ b then [] else [sg]) ++
      removeInDoc rest (a - segLen sg) (b - segLen sg)

/-- Applying a group of removal ops in submission order. -/
def applyRemoveOps (doc : List Seg) (ops : List RemoveOp) : List Seg :=
  ops.foldl (fun d op => removeInDoc d op.pos1 op.pos2) doc

/-- An insert-segment op as produced by `createInsertSegmentOp(pos, seg)`. -/
structure InsertOp where
  pos : Nat
  seg : Seg
deriving DecidableEq, Repr

/-- The single grouped message handed to `sharedString.groupOperation` at the
end of `FlowDocument.insertTags`. -/
structure InsertGroupMsg where
  ops : List InsertOp
  deltaType : MergeTreeDeltaType
deriving DecidableEq, Repr

/-- The id of the end marker built by `insertTags`: `end-<id>`. -/
def endIdFor (id : SegId) : SegId := ['e', 'n', 'd', '-'] ++ id

/-- The id of the begin marker built by `insertTags`: `begin-<id>`. -/
def beginIdFor (id : SegId) : SegId := ['b', 'e', 'g', 'i', 'n', '-'] ++ id

/-- `FlowDocument.insertTags(tags, start, end)`: a single fresh `id` (the
source draws it from `randomId()`; here it is a parameter) is shared by the
matched pair; the end-marker insertion op is pushed before the begin-marker
insertion op, and both are submitted as one atomic group. -/
def insertTags (tags : List String) (s e : Nat) (id : SegId) : InsertGroupMsg :=
  ⟨[⟨e, ⟨.endTags (endIdFor id), none⟩⟩,
    ⟨s, ⟨.beginTags (beginIdFor id) tags, none⟩⟩], .GROUP⟩

/-- Applying a single insert op: the segment is placed at position `p`,
splitting a text segment when `p` falls strictly inside it. -/
def insertInDoc : List Seg → Nat → Seg → List Seg
  | [], _, m => [m]
  | sg :: rest, p, m =>
    if p = 0 then m :: sg :: rest
    else
      match sg.kind with
      | .text c =>
        if p < c.length then
          ⟨.text (c.take p), sg.classList⟩ :: m ::
            ⟨.text (c.drop p), sg.classList⟩ :: rest
        else sg :: insertInDoc rest (p - c.length) m
      | _ => sg :: insertInDoc rest (p - segLen sg) m

/-- Applying a group of insert ops in submission order. -/
def applyInsertOps (doc : List Seg) (g : InsertGroupMsg) : List Seg :=
  g.ops.foldl (fun d op => insertInDoc d op.pos op.seg) doc

/-- `FlowDocument.getEnd`: look up the segment whose id replaces the
marker id's `begin` prefix (5 characters) with `end`. -/
def getEndMarker (doc : List Seg) (m : Seg) : Option Seg :=
  (getId m).bind (fun i => doc.find? (fun sg => getId sg = some (['e', 'n', 'd'] ++ i.drop 5)))

/-- `FlowDocument.getStart`: look up the segment whose id replaces the
marker id's `end` prefix (3 characters) with `begin`. -/
def getStartMarker (doc : List Seg) (m : Seg) : Option Seg :=
  (getId m).bind (fun i => doc.find? (fun sg => getId sg = some (['b', 'e', 'g', 'i', 'n'] ++ i.drop 3)))

/-- Split a space-separated character list into its tokens, accumulating the
current (reversed) token in `cur`. -/
def splitTokensAux : List Char → List Char → List String
  | [], cur => if cur = [] then [] else [String.mk cur.reverse]
  | c :: cs, cur =>
    if c = ' ' then
      (if cur = [] then [] else [String.mk cur.reverse]) ++ splitTokensAux cs []
    else splitTokensAux cs (c :: cur)

/-- Split a class-list property value into its tokens.
Modelled from the spec: the `TokenList` helpers live in the external
`flow-util` package, which is not among the provided sources; they are
modelled from the spec's description of class toggling ("computes ...
whether each class is currently present; flips add/remove") and the
call-site comments ("change the add to a removal"). -/
def splitTokens (cl : Option String) : List String :=
  splitTokensAux (cl.getD "").data []

/-- Join tokens back into a space-separated class-list string.
Modelled from the spec: see `splitTokens`. -/
def joinTokens : List String → String
  | [] => ""
  | [t] => t
  | t :: rest => t ++ " " ++ joinTokens rest

/-- `TokenList.set`: add the tokens of `tokens` that are not yet present;
the class list is returned unchanged when nothing is missing.
Modelled from the spec: see `splitTokens`. -/
def tokenListSet (cl : Option String) (tokens : String) : Option String :=
  let cur := splitTokens cl
  let missing := (splitTokens (some tokens)).filter (fun t => ¬ t ∈ cur)
  if missing = [] then cl else some (joinTokens (cur ++ missing))

/-- `TokenList.unset`: remove one token; the class list is returned
unchanged when the token is absent.
Modelled from the spec: see `splitTokens`. -/
def tokenListUnset (cl : Option String) (token : String) : Option String :=
  let cur := splitTokens cl
  if token ∈ cur then some (joinTokens (cur.filter (fun t => t ≠ token)))
  else cl

/-- `TokenList.computeToggle`: every pending `toAdd` token that is already
present in the class list is moved from `toAdd` to `toRemove`.
Modelled from the spec: see `splitTokens`. -/
def tokenListComputeToggle (cl : Option String) (st : List String × List String) :
    List String × List String :=
  let cur := splitTokens cl
  (st.1.filter (fun t => ¬ t ∈ cur),
   st.2 ++ ((st.1.filter (fun t => t ∈ cur)).filter (fun t => ¬ t ∈ st.2)))

/-- An annotation call `annotate(spanStart, spanEnd, { classList })` as issued
by `FlowDocument.updateCssClassList`. -/
structure AnnotateCall where
  spanStart : Nat
  spanEnd : Nat
  classList : Option String
deriving DecidableEq, Repr

/-- Applying one class-list annotation over `[a, b)`: segments fully covered
take the new class list; a partially covered text segment is split so that
only the covered part is re-annotated. -/
def annotateInDoc : List Seg → Nat → Nat → Option String → List Seg
  | [], _, _, _ => []
  | sg :: rest, a, b, cl =>
    (match sg.kind with
      | .text c =>
        let lo := min a c.length
        let hi := min b c.length
        if lo < hi then
          ((if c.take lo = [] then [] else [⟨.text (c.take lo), sg.classList⟩]) ++
            [⟨.text ((c.drop lo).take (hi - lo)), cl⟩] ++
            (if c.drop hi = [] then [] else [⟨.text (c.drop hi), sg.classList⟩]))
        else [sg]
      | _ => if a = 0 ∧ 1 ≤ b then [⟨sg.kind, cl⟩] else [sg]) ++
      annotateInDoc rest (a - segLen sg) (b - segLen sg) cl

/-- `FlowDocument.updateCssClassList(start, end, callback)`: visit the range,
record a `(span, newClassList)` update for every segment whose class list the
callback changes, then issue one annotation call per recorded update. -/
def updateCssClassList (doc : List Seg) (s e : Nat) (cb : Option String → Option String) :
    List Seg × List AnnotateCall :=
  let calls := (visitList doc s e).filterMap (fun pe =>
    let oldList := pe.2.classList
    let newList := cb oldList
    if newList ≠ oldList then
      some ⟨max pe.1 s, min (pe.1 + segLen pe.2) e, newList⟩
    else none)
  (calls.foldl (fun d c => annotateInDoc d c.spanStart c.spanEnd c.classList) doc, calls)

/-- `FlowDocument.removeCssClass(start, end, ...classNames)`. -/
def removeCssClass (doc : List Seg) (s e : Nat) (classNames : List String) :
    List Seg × List AnnotateCall :=
  updateCssClassList doc s e
    (fun cl => classNames.foldl (fun acc cn => tokenListUnset acc cn) cl)

/-- `FlowDocument.addCssClass(start, end, ...classNames)`: a no-op for an
empty class-name list. -/
def addCssClass (doc : List Seg) (s e : Nat) (classNames : List String) :
    List Seg × List AnnotateCall :=
  if classNames ≠ [] then
    updateCssClassList doc s e (fun cl => tokenListSet cl (joinTokens classNames))
  else (doc, [])

/-- `FlowDocument.toggleCssClass(start, end, ...classNames)`: a pre-visit of
the whole range threads one `(toAdd, toRemove)` pair through
`TokenList.computeToggle` (the source routes this through
`updateCssClassList` with a callback returning the class list unchanged, so
the pre-visit records no updates); then the collected `toRemove` classes are
removed and the remaining `toAdd` classes added over the full range. -/
def toggleCssClass (doc : List Seg) (s e : Nat) (classNames : List String) :
    List Seg × List AnnotateCall :=
  let st := (visitList doc s e).foldl
    (fun st pe => tokenListComputeToggle pe.2.classList st) (classNames, [])
  let rem := removeCssClass doc s e st.2
  let add := addCssClass rem.1 s e st.1
  (add.1, rem.2 ++ add.2)

/-- A local reference: either the unregistered end-of-document sentinel or a
reference bound to a `(segment, offset)` pair (segment identity = index). -/
inductive LocalRef where
  | eod
  | bound (i off : Nat)
deriving DecidableEq, Repr

/-- Whether and how `addLocalRef` registered the reference with the store. -/
inductive RefRegistration where
  | notRegistered
  | slideOnRemove
deriving DecidableEq, Repr

/-- `FlowDocument.addLocalRef(position)`: at or past the end of the document
the unregistered end-of-document sentinel is returned; otherwise the
position is resolved to its `(segment, offset)` and a slide-on-remove
reference is registered with the store. -/
def addLocalRef (doc : List Seg) (p : Nat) : LocalRef × RefRegistration :=
  if docLength doc ≤ p then (.eod, .notRegistered)
  else
    match containingIdx doc p with
    | some io => (.bound io.1 io.2, .slideOnRemove)
    | none => (.eod, .notRegistered)

/-- `FlowDocument.localRefToPosition`: the sentinel resolves to the current
length, a bound reference to its segment's position plus its offset. -/
def localRefToPosition (doc : List Seg) : LocalRef → Nat
  | .eod => docLength doc
  | .bound i off => posIdx doc i + off

/-- A bound reference is valid when its segment exists and its offset lies
inside the segment (the shape produced by `addLocalRef` and maintained by
the store's slide policy). -/
def validRefB (doc : List Seg) : LocalRef → Bool
  | .eod => true
  | .bound i off =>
    match doc.get? i with
    | some sg => off < segLen sg
    | none => false

/-- Propositional form of `validRefB`. -/
def validRef (doc : List Seg) (r : LocalRef) : Prop := validRefB doc r = true

instance (doc : List Seg) (r : LocalRef) : Decidable (validRef doc r) :=
  instDecidableEqBool (validRefB doc r) true

/-- Modelled from the spec: the store's slide-on-remove relocation (owned by
the external merge-tree package, not among the provided sources) at position
granularity — after removing `[a, b)`, a reference at `q` keeps its position
when before the range, slides to the nearest surviving adjacent position `a`
when inside it, and shifts down by the removed amount when past it. -/
def slideOnRemovePos (q a b : Nat) : Nat :=
  if q < a then q else if q < b then a else q - (b - a)

/-- The target of the coordinate mapping for a caret position: the
`(segment, offset)` pair handed to `layout.segmentAndOffsetToNodeAndOffset`
(`none` is the end-of-document sentinel). -/
abbrev CaretTarget := Option Seg × Nat

/-- `Caret.positionToNodeOffset` up to the layout call: `refSeg` is the
reference's own segment (`ref.segment` in the source), whose kind decides
the direct-mapping branch; `position` is the reference's resolved
position. -/
def positionToNodeOffset (doc : List Seg) (refSeg : Option Seg) (position : Nat) :
    CaretTarget :=
  let r := getSegmentAndOffset doc position
  let rightKind := getDocSegmentKind refSeg
  if position = 0 ∨ rightKind = .text then r
  else
    let l := getSegmentAndOffset doc (position - 1)
    let delta := if getDocSegmentKind l.1 = .text then 1 else 0
    (l.1, l.2 + delta)

/-- The length of a possibly-sentinel segment (used only to state the
spec-side mapping). -/
def segLenOpt : Option Seg → Nat
  | none => 0
  | some sg => segLen sg

/-- The forward position-to-coordinate mapping as the spec states it, for
comparison with the code's `positionToNodeOffset`: if the position is `0` or
the segment owning the position is text, map directly; otherwise inspect the
segment ending at `position - 1`, targeting `(segment, length)` when it is
text and `(segment, 0)` otherwise. -/
def caretTargetSpec (doc : List Seg) (position : Nat) : CaretTarget :=
  let r := getSegmentAndOffset doc position
  if position = 0 ∨ getDocSegmentKind r.1 = .text then r
  else
    let l := getSegmentAndOffset doc (position - 1)
    if getDocSegmentKind l.1 = .text then (l.1, segLenOpt l.1) else (l.1, 0)

/-- The external window selection: abstract `(node, nodeOffset)` coordinates
for anchor and focus. -/
structure WinSel where
  anchorCoord : Nat × Nat
  focusCoord : Nat × Nat
deriving DecidableEq, Repr

/-- The observable outcome of one `Caret.sync()` call: the window selection
afterwards, whether `setBaseAndExtent` was applied, and the arguments of the
coordinate-mapping (`segmentAndOffsetToNodeAndOffset`) calls it made. -/
structure SyncOut where
  sel : WinSel
  applied : Bool
  mapCalls : List CaretTarget
deriving Repr

/-- `Caret.sync()`: map both references through `positionToNodeOffset` and
the layout mapping `m`, then update the window selection only when the
computed coordinates differ from the current ones. -/
def caretSync (doc : List Seg) (m : CaretTarget → Nat × Nat)
    (startSeg : Option Seg) (startPos : Nat) (endSeg : Option Seg) (endPos : Nat)
    (w : WinSel) : SyncOut :=
  let st := positionToNodeOffset doc startSeg startPos
  let et := positionToNodeOffset doc endSeg endPos
  let sN := m st
  let eN := m et
  if eN ≠ w.focusCoord ∨ sN ≠ w.anchorCoord then ⟨⟨sN, eN⟩, true, [st, et]⟩
  else ⟨w, false, [st, et]⟩

/-! ### Shared concrete documents for witnesses and scenarios -/

/-- The id suffix used by the concrete scenario documents. -/
def tagX : SegId := ['x']

/-- The scenario document of the spec: `Begin` at 0, text `"AB"` at `[1, 3)`,
`End` at 3 (length 4). -/
def doc1 : List Seg :=
  [⟨.beginTags (beginIdFor tagX) ["b"], none⟩,
   ⟨.text ['A', 'B'], none⟩,
   ⟨.endTags (endIdFor tagX), none⟩]

/-- A one-segment document with two text units. -/
def doc4 : List Seg := [⟨.text ['A', 'B'], none⟩]

/-- The spec's CSS-toggle scenario document: the first half (text `"AB"`,
positions `[0, 2)`) already carries class `"x"`, the second half (text
`"CD"`, positions `[2, 4)`) does not. -/
def doc6 : List Seg :=
  [⟨.text ['A', 'B'], some "x"⟩, ⟨.text ['C', 'D'], none⟩]


/-- Whether a segment is an end tag marker. -/
def isEndKind (sg : Seg) : Bool :=
  match sg.kind with
  | .endTags _ => true
  | _ => false

/-- The matching-end positions of the begin tag markers in a visit list. -/
def epsOf (doc : List Seg) (l : List (Nat × Seg)) : List Nat :=
  l.filterMap (fun pe =>
    match pe.2.kind with
    | .beginTags bid _ => some (endPosForBegin doc bid)
    | _ => none)


/-! ### Basic facts about lengths and the containing-segment lookup -/

theorem docLength_cons (sg : Seg) (l : List Seg) :
    docLength (sg :: l) = segLen sg + docLength l := by
  simp [docLength]

theorem docLength_append (l1 l2 : List Seg) :
    docLength (l1 ++ l2) = docLength l1 + docLength l2 := by
  simp [docLength]

theorem posIdx_zero (doc : List Seg) : posIdx doc 0 = 0 := by
  simp [posIdx, docLength]

theorem posIdx_cons (sg : Seg) (rest : List Seg) (i : Nat) :
    posIdx (sg :: rest) (i + 1) = segLen sg + posIdx rest i := by
  simp [posIdx, docLength]

theorem containingIdx_spec (doc : List Seg) :
    ∀ p i o, containingIdx doc p = some (i, o) →
      ∃ sg, doc.get? i = some sg ∧ o < segLen sg ∧ posIdx doc i + o = p := by
  induction doc with
  | nil => intro p i o h; simp [containingIdx] at h
  | cons sg rest ih =>
    intro p i o h
    by_cases hp : p < segLen sg
    · simp [containingIdx, hp] at h
      obtain ⟨hi, ho⟩ := h
      subst hi; subst ho
      exact ⟨sg, rfl, hp, by simp [posIdx_zero]⟩
    · simp [containingIdx, hp, Option.map_eq_some'] at h
      obtain ⟨a, hrec, hi⟩ := h
      subst hi
      obtain ⟨sg', hget, hlt, hpos⟩ := ih (p - segLen sg) a o hrec
      refine ⟨sg', by simpa using hget, hlt, ?_⟩
      rw [posIdx_cons]
      omega

theorem containingIdx_total (doc : List Seg) :
    ∀ p, p < docLength doc → ∃ i o, containingIdx doc p = some (i, o) := by
  induction doc with
  | nil => intro p h; simp [docLength] at h
  | cons sg rest ih =>
    intro p h
    by_cases hp : p < segLen sg
    · exact ⟨0, p, by simp [containingIdx, hp]⟩
    · rw [docLength_cons] at h
      obtain ⟨i, o, hio⟩ := ih (p - segLen sg) (by omega)
      exact ⟨i + 1, o, by simp [containingIdx, hp, hio]⟩

/-- A position whose successor starts a new segment is the last unit of its
own segment. -/
theorem containingIdx_boundary (doc : List Seg) :
    ∀ p i2, containingIdx doc (p + 1) = some (i2, 0) →
      ∀ j oj, containingIdx doc p = some (j, oj) →
        ∃ sg, doc.get? j = some sg ∧ oj + 1 = segLen sg := by
  induction doc with
  | nil => intro p i2 h; simp [containingIdx] at h
  | cons sg rest ih =>
    intro p i2 h j oj hj
    by_cases hp1 : p + 1 < segLen sg
    · simp [containingIdx, hp1] at h
    · by_cases hp : p < segLen sg
      · simp [containingIdx, hp] at hj
        obtain ⟨hj0, hoj⟩ := hj
        subst hj0; subst hoj
        exact ⟨sg, rfl, by omega⟩
      · simp [containingIdx, hp1, Option.map_eq_some'] at h
        obtain ⟨a2, hrec2, hi2⟩ := h
        simp [containingIdx, hp, Option.map_eq_some'] at hj
        obtain ⟨aj, hrecj, hj1⟩ := hj
        subst hj1
        have harg : p + 1 - segLen sg = (p - segLen sg) + 1 := by omega
        rw [harg] at hrec2
        obtain ⟨sgj, hget, hlen⟩ := ih (p - segLen sg) a2 hrec2 aj oj hrecj
        exact ⟨sgj, by simpa using hget, hlen⟩

/-- The last position of a non-empty document is the last unit of its own
segment. -/
theorem containingIdx_last (doc : List Seg) :
    ∀ p, p + 1 = docLength doc →
      ∀ j oj, containingIdx doc p = some (j, oj) →
        ∃ sg, doc.get? j = some sg ∧ oj + 1 = segLen sg := by
  induction doc with
  | nil => intro p h j oj hj; simp [containingIdx] at hj
  | cons sg rest ih =>
    intro p h j oj hj
    rw [docLength_cons] at h
    by_cases hp : p < segLen sg
    · simp [containingIdx, hp] at hj
      obtain ⟨hj0, hoj⟩ := hj
      subst hj0; subst hoj
      refine ⟨sg, rfl, ?_⟩
      -- the tail contributes nothing, so p + 1 = segLen sg
      omega
    · simp [containingIdx, hp, Option.map_eq_some'] at hj
      obtain ⟨aj, hrecj, hj1⟩ := hj
      subst hj1
      obtain ⟨sgj, hget, hlen⟩ := ih (p - segLen sg) (by omega) aj oj hrecj
      exact ⟨sgj, by simpa using hget, hlen⟩

/-! ### C4: position round-trip -/

/-- C4 (counterexample): the round-trip as literally claimed —
`segmentToPosition(positionToSegmentOffset(p)) == p` with the offset
discarded — fails at `p = 1` inside the text segment of `doc4`, although
`1` lies in `[0, length]`: the containing segment starts at position 0. -/
theorem position_roundtrip_literal_counterexample :
    1 ≤ docLength doc4 ∧
      segmentToPosition doc4 (positionToSegmentOffset doc4 1).1 ≠ 1 := by
  constructor
  · decide
  · decide

/-- C4 (amended): for every `p` in `[0, length]`, the position of the segment
returned by `positionToSegmentOffset(p)` plus the returned offset equals `p`;
at `p = length` the sentinel path is taken: `positionToSegmentOffset` returns
the end-of-document sentinel with offset `0`, and `segmentToPosition` maps
the sentinel back to `length`. -/
theorem position_roundtrip_with_offset (doc : List Seg) (p : Nat)
    (hp : p ≤ docLength doc) :
    segmentToPosition doc (positionToSegmentOffset doc p).1 +
        (positionToSegmentOffset doc p).2 = p ∧
      (p = docLength doc →
        positionToSegmentOffset doc p = (none, 0) ∧
          segmentToPosition doc none = docLength doc) := by
  by_cases he : p = docLength doc
  · refine ⟨?_, fun _ => ⟨by simp [positionToSegmentOffset, he], rfl⟩⟩
    simp [positionToSegmentOffset, he, segmentToPosition]
  · have hlt : p < docLength doc := lt_of_le_of_ne hp he
    obtain ⟨i, o, hio⟩ := containingIdx_total doc p hlt
    obtain ⟨sg, _, _, hpos⟩ := containingIdx_spec doc p i o hio
    refine ⟨?_, fun hc => absurd hc he⟩
    simp [positionToSegmentOffset, he, hio, segmentToPosition, hpos]

/-- C4 witness: the amended round-trip evaluated at `doc4`, `p = 1`. -/
theorem position_roundtrip_with_offset_witness :
    1 ≤ docLength doc4 ∧
      (segmentToPosition doc4 (positionToSegmentOffset doc4 1).1 +
          (positionToSegmentOffset doc4 1).2 = 1 ∧
        (1 = docLength doc4 →
          positionToSegmentOffset doc4 1 = (none, 0) ∧
            segmentToPosition doc4 none = docLength doc4)) :=
  ⟨by decide, position_roundtrip_with_offset doc4 1 (by decide)⟩

/-! ### C10: opposite-marker lookup round-trip -/

/-- C10: for a matched pair created by `insertTags` — a begin marker with id
`begin-<x>` and an end marker with id `end-<x>` present in the document —
`getEnd` applied to the begin marker returns the end marker and `getStart`
applied to that end marker returns the begin marker: the lookup swaps the
`begin-`/`end-` id prefixes while preserving the shared id suffix. -/
theorem tag_marker_lookup_roundtrip (doc : List Seg) (x : SegId) (bm em : Seg)
    (hb : doc.find? (fun sg => getId sg = some (beginIdFor x)) = some bm)
    (he : doc.find? (fun sg => getId sg = some (endIdFor x)) = some em) :
    getEndMarker doc bm = some em ∧ getStartMarker doc em = some bm := by
  have hbid : getId bm = some (beginIdFor x) := by
    have := List.find?_some hb
    simpa using this
  have heid : getId em = some (endIdFor x) := by
    have := List.find?_some he
    simpa using this
  constructor
  · rw [getEndMarker, hbid, Option.some_bind]
    have hdrop : ['e', 'n', 'd'] ++ (beginIdFor x).drop 5 = endIdFor x := by
      simp [beginIdFor, endIdFor]
    rw [hdrop]
    exact he
  · rw [getStartMarker, heid, Option.some_bind]
    have hdrop : ['b', 'e', 'g', 'i', 'n'] ++ (endIdFor x).drop 3 = beginIdFor x := by
      simp [beginIdFor, endIdFor]
    rw [hdrop]
    exact hb

/-- C10 witness: the lookup round-trip evaluated on the scenario document
`doc1` with id suffix `x`. -/
theorem tag_marker_lookup_roundtrip_witness :
    getEndMarker doc1 ⟨.beginTags (beginIdFor tagX) ["b"], none⟩ =
        some ⟨.endTags (endIdFor tagX), none⟩ ∧
      getStartMarker doc1 ⟨.endTags (endIdFor tagX), none⟩ =
        some ⟨.beginTags (beginIdFor tagX) ["b"], none⟩ :=
  tag_marker_lookup_roundtrip doc1 tagX _ _ (by decide) (by decide)

/-! ### C7: local reference creation and resolution -/

theorem posIdx_bound (doc : List Seg) :
    ∀ i sg, doc.get? i = some sg → posIdx doc i + segLen sg ≤ docLength doc := by
  induction doc with
  | nil => intro i sg h; simp at h
  | cons s0 rest ih =>
    intro i sg h
    cases i with
    | zero =>
      simp at h
      subst h
      rw [posIdx_zero, docLength_cons]
      omega
    | succ n =>
      have := ih n sg h
      rw [posIdx_cons, docLength_cons]
      omega

/-- C7: (1) `addLocalRef(p)` with `p ≥ length` returns the end-of-document
sentinel without registering anything; (2) otherwise it registers a
slide-on-remove reference at the resolved `(segment, offset)`, which is valid
and resolves back to `p`; (3) the sentinel always resolves to the current
length; (4) resolution is total and never exceeds `length` for any valid
reference; (5) the (spec-modelled) slide-on-remove relocation keeps every
resolved position within the shortened document after a removal. -/
theorem localRef_create_resolve_safety :
    (∀ doc p, docLength doc ≤ p → addLocalRef doc p = (.eod, .notRegistered)) ∧
      (∀ doc p, p < docLength doc → ∃ i off,
        addLocalRef doc p = (.bound i off, .slideOnRemove) ∧
          validRef doc (.bound i off) ∧
          localRefToPosition doc (.bound i off) = p) ∧
      (∀ doc, localRefToPosition doc .eod = docLength doc) ∧
      (∀ doc r, validRef doc r → localRefToPosition doc r ≤ docLength doc) ∧
      (∀ L q a b, q ≤ L → a ≤ b → b ≤ L →
        slideOnRemovePos q a b ≤ L - (b - a)) := by
  refine ⟨?_, ?_, ?_, ?_, ?_⟩
  · intro doc p h
    simp [addLocalRef, h]
  · intro doc p h
    obtain ⟨i, o, hio⟩ := containingIdx_total doc p h
    obtain ⟨sg, hget, hlt, hpos⟩ := containingIdx_spec doc p i o hio
    refine ⟨i, o, ?_, ?_, ?_⟩
    · simp [addLocalRef, Nat.not_le.mpr h, hio]
    · show validRefB doc (.bound i o) = true
      simp only [validRefB]
      rw [hget]
      simpa using hlt
    · simpa [localRefToPosition] using hpos
  · intro doc
    rfl
  · intro doc r hv
    cases r with
    | eod => exact le_refl _
    | bound i off =>
      have hv2 : (match doc.get? i with
          | some sg => decide (off < segLen sg)
          | none => false) = true := hv
      cases hget : doc.get? i with
      | none => rw [hget] at hv2; simp at hv2
      | some sg =>
        rw [hget] at hv2
        have hlt : off < segLen sg := by simpa using hv2
        have := posIdx_bound doc i sg hget
        simp only [localRefToPosition]
        omega
  · intro L q a b hq hab hb
    unfold slideOnRemovePos
    split_ifs <;> omega

/-- C7 witness: the five parts evaluated at concrete inputs over `doc1`. -/
theorem localRef_create_resolve_safety_witness :
    addLocalRef doc1 7 = (.eod, .notRegistered) ∧
      (∃ i off, addLocalRef doc1 2 = (.bound i off, .slideOnRemove) ∧
        validRef doc1 (.bound i off) ∧
        localRefToPosition doc1 (.bound i off) = 2) ∧
      localRefToPosition doc1 .eod = docLength doc1 ∧
      localRefToPosition doc1 (.bound 1 1) ≤ docLength doc1 ∧
      slideOnRemovePos 3 1 3 ≤ 4 - (3 - 1) :=
  ⟨localRef_create_resolve_safety.1 doc1 7 (by decide),
   localRef_create_resolve_safety.2.1 doc1 2 (by decide),
   localRef_create_resolve_safety.2.2.1 doc1,
   localRef_create_resolve_safety.2.2.2.1 doc1 (.bound 1 1) (by decide),
   localRef_create_resolve_safety.2.2.2.2 4 3 1 3 (by decide) (by decide) (by decide)⟩

/-! ### C8: idempotence of the caret's sync -/

/-- C8 (amended): `Caret.sync()` is idempotent in its observable effect —
invoking it a second time with no intervening document or selection change
applies no further selection update (the comparison with the window
selection finds equality, so `setBaseAndExtent` is skipped) and leaves the
window selection unchanged.  However, the second invocation still performs
its coordinate-mapping calls (see the counterexample). -/
theorem caret_sync_idempotent (doc : List Seg) (m : CaretTarget → Nat × Nat)
    (ss : Option Seg) (sp : Nat) (es : Option Seg) (ep : Nat) (w : WinSel) :
    (caretSync doc m ss sp es ep (caretSync doc m ss sp es ep w).sel).applied = false ∧
      (caretSync doc m ss sp es ep (caretSync doc m ss sp es ep w).sel).sel =
        (caretSync doc m ss sp es ep w).sel := by
  by_cases h : m (positionToNodeOffset doc es ep) ≠ w.focusCoord ∨
      m (positionToNodeOffset doc ss sp) ≠ w.anchorCoord
  · simp [caretSync, h]
  · simp [caretSync, h]

/-- C8 (counterexample): the second invocation of `sync` still performs
coordinate-mapping calls — the claim's "zero additional coordinate-mapping
calls" fails: `positionToNodeOffset` and the layout mapping run
unconditionally at the start of every `sync`. -/
theorem caret_sync_second_call_maps_again :
    (caretSync [] (fun t => (0, t.2)) none 0 none 0
        (caretSync [] (fun t => (0, t.2)) none 0 none 0 ⟨(1, 1), (1, 1)⟩).sel).mapCalls ≠
      [] := by
  decide

/-! ### C5: insertTags -/

theorem getId_of_text (sg : Seg) (c : List Char) (hk : sg.kind = .text c) :
    getId sg = none := by
  unfold getId
  rw [hk]

theorem segLen_of_text (sg : Seg) (c : List Char) (hk : sg.kind = .text c) :
    segLen sg = c.length := by
  unfold segLen
  rw [hk]

theorem insertInDoc_cons_zero (sg : Seg) (rest : List Seg) (m : Seg) :
    insertInDoc (sg :: rest) 0 m = m :: sg :: rest := by
  simp [insertInDoc]

theorem insertInDoc_cons_text (sg : Seg) (rest : List Seg) (p : Nat) (m : Seg)
    (c : List Char) (hp : p ≠ 0) (hk : sg.kind = .text c) (hlt : p < c.length) :
    insertInDoc (sg :: rest) p m =
      ⟨.text (c.take p), sg.classList⟩ :: m ::
        ⟨.text (c.drop p), sg.classList⟩ :: rest := by
  simp [insertInDoc, hk, hp, hlt]

theorem insertInDoc_cons_text_ge (sg : Seg) (rest : List Seg) (p : Nat) (m : Seg)
    (c : List Char) (hp : p ≠ 0) (hk : sg.kind = .text c) (hge : ¬ p < c.length) :
    insertInDoc (sg :: rest) p m = sg :: insertInDoc rest (p - c.length) m := by
  simp [insertInDoc, hk, hp, hge]

theorem insertInDoc_cons_other (sg : Seg) (rest : List Seg) (p : Nat) (m : Seg)
    (hp : p ≠ 0) (hne : ∀ c2, sg.kind ≠ .text c2) :
    insertInDoc (sg :: rest) p m = sg :: insertInDoc rest (p - segLen sg) m := by
  cases hk : sg.kind with
  | text c => exact absurd hk (hne c)
  | paragraph => simp [insertInDoc, hk, hp, segLen]
  | lineBreak => simp [insertInDoc, hk, hp, segLen]
  | inclusion => simp [insertInDoc, hk, hp, segLen]
  | beginTags a b => simp [insertInDoc, hk, hp, segLen]
  | endTags a => simp [insertInDoc, hk, hp, segLen]

theorem docLength_insertInDoc (m : Seg) (doc : List Seg) :
    ∀ p, docLength (insertInDoc doc p m) = docLength doc + segLen m := by
  induction doc with
  | nil => intro p; simp [insertInDoc, docLength]
  | cons sg rest ih =>
    intro p
    by_cases hp : p = 0
    · subst hp
      rw [insertInDoc_cons_zero, docLength_cons, docLength_cons]
      omega
    · by_cases htx : ∃ c2, sg.kind = .text c2
      · obtain ⟨c, hk⟩ := htx
        by_cases hlt : p < c.length
        · rw [insertInDoc_cons_text sg rest p m c hp hk hlt]
          rw [docLength_cons, docLength_cons, docLength_cons, docLength_cons,
            segLen_of_text sg c hk]
          simp [segLen]
          omega
        · rw [insertInDoc_cons_text_ge sg rest p m c hp hk hlt,
            docLength_cons, docLength_cons, ih]
          omega
      · have hne : ∀ c2, sg.kind ≠ .text c2 := fun c2 hc => htx ⟨c2, hc⟩
        rw [insertInDoc_cons_other sg rest p m hp hne,
          docLength_cons, docLength_cons, ih]
        omega

theorem findIdPos_cons_of_eq (sg : Seg) (rest : List Seg) (j : SegId)
    (h : getId sg = some j) : findIdPos (sg :: rest) j = some 0 := by
  simp [findIdPos, h]

theorem findIdPos_cons_of_ne (sg : Seg) (rest : List Seg) (j : SegId)
    (h : ¬ getId sg = some j) :
    findIdPos (sg :: rest) j = (findIdPos rest j).map (· + segLen sg) := by
  simp [findIdPos, h]

theorem segLen_of_ne_text (sg : Seg) (hne : ∀ c2, sg.kind ≠ .text c2) :
    segLen sg = 1 := by
  unfold segLen
  cases hk : sg.kind with
  | text c => exact absurd hk (hne c)
  | paragraph => simp
  | lineBreak => simp
  | inclusion => simp
  | beginTags a b => simp
  | endTags a => simp

/-- Inserting a marker with a fresh id makes its id findable exactly at the
insertion position. -/
theorem findIdPos_insertInDoc_fresh (m : Seg) (i : SegId)
    (hmi : getId m = some i) (doc : List Seg) :
    ∀ p, p ≤ docLength doc → findIdPos doc i = none →
      findIdPos (insertInDoc doc p m) i = some p := by
  induction doc with
  | nil =>
    intro p hp _
    have hp0 : p = 0 := by simpa [docLength] using hp
    subst hp0
    simp [insertInDoc, findIdPos, hmi]
  | cons sg rest ih =>
    intro p hp hnone
    have hsg : ¬ getId sg = some i := by
      intro hh
      simp [findIdPos, hh] at hnone
    have hrest : findIdPos rest i = none := by
      simp [findIdPos, hsg] at hnone
      exact hnone
    by_cases hp0 : p = 0
    · subst hp0
      rw [insertInDoc_cons_zero, findIdPos_cons_of_eq m _ i hmi]
    · by_cases htx : ∃ c2, sg.kind = .text c2
      · obtain ⟨c, hk⟩ := htx
        by_cases hlt : p < c.length
        · rw [insertInDoc_cons_text sg rest p m c hp0 hk hlt,
            findIdPos_cons_of_ne _ _ i (by simp [getId]),
            findIdPos_cons_of_eq m _ i hmi]
          simp [segLen]
          omega
        · rw [insertInDoc_cons_text_ge sg rest p m c hp0 hk hlt,
            findIdPos_cons_of_ne sg _ i hsg]
          rw [docLength_cons, segLen_of_text sg c hk] at hp
          rw [ih (p - c.length) (by omega) hrest]
          rw [segLen_of_text sg c hk]
          simp
          omega
      · have hne : ∀ c2, sg.kind ≠ .text c2 := fun c2 hc => htx ⟨c2, hc⟩
        rw [insertInDoc_cons_other sg rest p m hp0 hne,
          findIdPos_cons_of_ne sg _ i hsg]
        rw [docLength_cons] at hp
        have hsl : segLen sg = 1 := segLen_of_ne_text sg hne
        rw [ih (p - segLen sg) (by omega) hrest]
        simp
        omega

/-- Inserting a marker with a different id shifts a present id's position by
the inserted length exactly when the insertion is at or before it. -/
theorem findIdPos_insertInDoc_shift (m : Seg) (j : SegId)
    (hm : ¬ getId m = some j) (doc : List Seg) :
    ∀ p q, findIdPos doc j = some q →
      findIdPos (insertInDoc doc p m) j =
        some (if p ≤ q then q + segLen m else q) := by
  induction doc with
  | nil => intro p q h; simp [findIdPos] at h
  | cons sg rest ih =>
    intro p q h
    by_cases hp0 : p = 0
    · subst hp0
      rw [insertInDoc_cons_zero, findIdPos_cons_of_ne m _ j hm, h]
      simp
    · by_cases hsg : getId sg = some j
      · have hq : q = 0 := by
          rw [findIdPos_cons_of_eq sg _ j hsg] at h
          simpa using h.symm
        subst hq
        have hne : ∀ c2, sg.kind ≠ .text c2 := by
          intro c2 hc
          exact absurd (getId_of_text sg c2 hc ▸ hsg) (by simp)
        rw [insertInDoc_cons_other sg rest p m hp0 hne,
          findIdPos_cons_of_eq sg _ j hsg]
        rw [if_neg (by omega)]
      · rw [findIdPos_cons_of_ne sg _ j hsg] at h
        cases hq2m : findIdPos rest j with
        | none =>
          rw [hq2m] at h
          simp at h
        | some q2 =>
        rw [hq2m] at h
        have hqe : q2 + segLen sg = q := by simpa using h
        have hq2 : findIdPos rest j = some q2 := hq2m
        by_cases htx : ∃ c2, sg.kind = .text c2
        · obtain ⟨c, hk⟩ := htx
          have hsl := segLen_of_text sg c hk
          by_cases hlt : p < c.length
          · rw [insertInDoc_cons_text sg rest p m c hp0 hk hlt,
              findIdPos_cons_of_ne _ _ j (by simp [getId]),
              findIdPos_cons_of_ne m _ j hm,
              findIdPos_cons_of_ne _ _ j (by simp [getId]), hq2]
            simp [segLen]
            split_ifs <;> omega
          · rw [insertInDoc_cons_text_ge sg rest p m c hp0 hk hlt,
              findIdPos_cons_of_ne sg _ j hsg,
              ih (p - c.length) q2 hq2]
            simp [hsl]
            split_ifs <;> omega
        · have hne : ∀ c2, sg.kind ≠ .text c2 := fun c2 hc => htx ⟨c2, hc⟩
          have hsl : segLen sg = 1 := segLen_of_ne_text sg hne
          rw [insertInDoc_cons_other sg rest p m hp0 hne,
            findIdPos_cons_of_ne sg _ j hsg,
            ih (p - segLen sg) q2 hq2]
          simp [hsl]
          split_ifs <;> omega

/-- Inserting a marker with a different id keeps an absent id absent. -/
theorem findIdPos_insertInDoc_none (m : Seg) (j : SegId)
    (hm : ¬ getId m = some j) (doc : List Seg) :
    ∀ p, findIdPos doc j = none →
      findIdPos (insertInDoc doc p m) j = none := by
  induction doc with
  | nil => intro p _; simp [insertInDoc, findIdPos, hm]
  | cons sg rest ih =>
    intro p hnone
    have hsg : ¬ getId sg = some j := by
      intro hh
      simp [findIdPos, hh] at hnone
    have hrest : findIdPos rest j = none := by
      simp [findIdPos, hsg] at hnone
      exact hnone
    by_cases hp0 : p = 0
    · subst hp0
      rw [insertInDoc_cons_zero, findIdPos_cons_of_ne m _ j hm,
        findIdPos_cons_of_ne sg _ j hsg, hrest]
      rfl
    · by_cases htx : ∃ c2, sg.kind = .text c2
      · obtain ⟨c, hk⟩ := htx
        by_cases hlt : p < c.length
        · rw [insertInDoc_cons_text sg rest p m c hp0 hk hlt,
            findIdPos_cons_of_ne _ _ j (by simp [getId]),
            findIdPos_cons_of_ne m _ j hm,
            findIdPos_cons_of_ne _ _ j (by simp [getId]), hrest]
          rfl
        · rw [insertInDoc_cons_text_ge sg rest p m c hp0 hk hlt,
            findIdPos_cons_of_ne sg _ j hsg, ih (p - c.length) hrest]
          rfl
      · have hne : ∀ c2, sg.kind ≠ .text c2 := fun c2 hc => htx ⟨c2, hc⟩
        rw [insertInDoc_cons_other sg rest p m hp0 hne,
          findIdPos_cons_of_ne sg _ j hsg, ih (p - segLen sg) hrest]
        rfl

/-- C5: `insertTagRange(tags, start, end)` uses one fresh id shared (via the
`begin-`/`end-` prefixes) by the matched marker pair; within the single
atomic group the End-marker insertion op at `end` precedes the Begin-marker
insertion op at `start`; and applying the group leaves the begin marker at
position `start` and the end marker at position `end + 1` (shifted by the
preceding begin insertion), so begin precedes end. -/
theorem insertTags_single_group_end_before_begin (doc : List Seg)
    (tags : List String) (s e : Nat) (id : SegId) (hse : s ≤ e)
    (hed : e ≤ docLength doc)
    (hfb : findIdPos doc (beginIdFor id) = none)
    (hfe : findIdPos doc (endIdFor id) = none) :
    (insertTags tags s e id).ops =
        [⟨e, ⟨.endTags (endIdFor id), none⟩⟩,
         ⟨s, ⟨.beginTags (beginIdFor id) tags, none⟩⟩] ∧
      (insertTags tags s e id).deltaType = .GROUP ∧
      findIdPos (applyInsertOps doc (insertTags tags s e id)) (beginIdFor id) =
        some s ∧
      findIdPos (applyInsertOps doc (insertTags tags s e id)) (endIdFor id) =
        some (e + 1) := by
  have hne : endIdFor id ≠ beginIdFor id := by simp [endIdFor, beginIdFor]
  have happ : applyInsertOps doc (insertTags tags s e id) =
      insertInDoc (insertInDoc doc e ⟨.endTags (endIdFor id), none⟩) s
        ⟨.beginTags (beginIdFor id) tags, none⟩ := rfl
  have hd1e : findIdPos (insertInDoc doc e ⟨.endTags (endIdFor id), none⟩)
      (endIdFor id) = some e :=
    findIdPos_insertInDoc_fresh ⟨.endTags (endIdFor id), none⟩ (endIdFor id)
      rfl doc e hed hfe
  have hd1b : findIdPos (insertInDoc doc e ⟨.endTags (endIdFor id), none⟩)
      (beginIdFor id) = none :=
    findIdPos_insertInDoc_none _ _ (by simp [getId, hne]) doc e hfb
  refine ⟨rfl, rfl, ?_, ?_⟩
  · rw [happ]
    refine findIdPos_insertInDoc_fresh ⟨.beginTags (beginIdFor id) tags, none⟩
      (beginIdFor id) rfl _ s ?_ hd1b
    rw [docLength_insertInDoc]
    exact le_trans (le_trans hse hed) (Nat.le_add_right _ _)
  · rw [happ]
    have := findIdPos_insertInDoc_shift ⟨.beginTags (beginIdFor id) tags, none⟩
      (endIdFor id) (by simp [getId, Ne.symm hne]) _ s e hd1e
    rw [this, if_pos hse]
    rfl

/-- C5 witness: `insertTags` evaluated over a two-character document. -/
theorem insertTags_single_group_end_before_begin_witness :
    (insertTags ["b"] 0 2 tagX).ops =
        [⟨2, ⟨.endTags (endIdFor tagX), none⟩⟩,
         ⟨0, ⟨.beginTags (beginIdFor tagX) ["b"], none⟩⟩] ∧
      (insertTags ["b"] 0 2 tagX).deltaType = .GROUP ∧
      findIdPos (applyInsertOps doc4 (insertTags ["b"] 0 2 tagX))
          (beginIdFor tagX) = some 0 ∧
      findIdPos (applyInsertOps doc4 (insertTags ["b"] 0 2 tagX))
          (endIdFor tagX) = some (2 + 1) :=
  insertTags_single_group_end_before_begin doc4 ["b"] 0 2 tagX (by decide)
    (by decide) (by decide) (by decide)

/-! ### C9: the forward position-to-coordinate mapping -/

theorem getDocSegmentKind_of_text (sg : Seg) (c : List Char)
    (hk : sg.kind = .text c) : getDocSegmentKind (some sg) = .text := by
  simp [getDocSegmentKind, hk]

theorem kind_text_of_getDocSegmentKind (sg : Seg)
    (h : getDocSegmentKind (some sg) = .text) : ∃ c, sg.kind = .text c := by
  cases hk : sg.kind with
  | text c => exact ⟨c, rfl⟩
  | paragraph => simp [getDocSegmentKind, hk] at h
  | lineBreak => simp [getDocSegmentKind, hk] at h
  | inclusion => simp [getDocSegmentKind, hk] at h
  | beginTags a b => simp [getDocSegmentKind, hk] at h
  | endTags a => simp [getDocSegmentKind, hk] at h

theorem getSegmentAndOffset_of_containing (doc : List Seg) (p i o : Nat)
    (hne : p ≠ docLength doc) (h : containingIdx doc p = some (i, o)) :
    getSegmentAndOffset doc p = (doc.get? i, o) := by
  simp [getSegmentAndOffset, positionToSegmentOffset, hne, h]

/-- C9: for a well-formed reference — one whose own segment is the segment
owning its resolved position, as produced by `addLocalRef` — the code's
forward mapping agrees with the spec's description: map directly from the
owning `(segment, offset)` when the position is `0` or the owning segment is
text; otherwise inspect the segment ending at `position - 1`, targeting
`(that segment, its length)` when it is text and `(that segment, 0)`
otherwise. -/
theorem positionToNodeOffset_matches_spec (doc : List Seg) (refSeg : Option Seg)
    (p : Nat) (href : refSeg = (getSegmentAndOffset doc p).1)
    (hp : p ≤ docLength doc) :
    positionToNodeOffset doc refSeg p = caretTargetSpec doc p := by
  subst href
  by_cases hc : p = 0 ∨ getDocSegmentKind (getSegmentAndOffset doc p).1 = .text
  · simp only [positionToNodeOffset, caretTargetSpec]
    rw [if_pos hc, if_pos hc]
  · simp only [positionToNodeOffset, caretTargetSpec]
    rw [if_neg hc, if_neg hc]
    push_neg at hc
    obtain ⟨hp0, hknd⟩ := hc
    have hp1 : 1 ≤ p := Nat.one_le_iff_ne_zero.mpr hp0
    have hplt : p - 1 < docLength doc := by omega
    obtain ⟨j, oj, hcj⟩ := containingIdx_total doc (p - 1) hplt
    obtain ⟨sgj, hgetj, hojlt, _⟩ := containingIdx_spec doc (p - 1) j oj hcj
    have hl : getSegmentAndOffset doc (p - 1) = (doc.get? j, oj) :=
      getSegmentAndOffset_of_containing doc (p - 1) j oj (by omega) hcj
    -- the segment owning p - 1 ends exactly at p
    have hboundary : oj + 1 = segLen sgj := by
      by_cases hpe : p = docLength doc
      · obtain ⟨sgj2, hget2, hlen2⟩ :=
          containingIdx_last doc (p - 1) (by omega) j oj hcj
        rw [hget2] at hgetj
        cases hgetj
        exact hlen2
      · have hplt2 : p < docLength doc := lt_of_le_of_ne hp hpe
        obtain ⟨i2, o2, hci2⟩ := containingIdx_total doc p hplt2
        obtain ⟨sg2, hget2, ho2lt, _⟩ := containingIdx_spec doc p i2 o2 hci2
        have hr : getSegmentAndOffset doc p = (doc.get? i2, o2) :=
          getSegmentAndOffset_of_containing doc p i2 o2 hpe hci2
        rw [hr] at hknd
        rw [hget2] at hknd
        have hne2 : ∀ c2, sg2.kind ≠ .text c2 := by
          intro c2 hk2
          exact hknd (getDocSegmentKind_of_text sg2 c2 hk2)
        have ho2 : o2 = 0 := by
          have := segLen_of_ne_text sg2 hne2
          omega
        subst ho2
        have hsucc : p - 1 + 1 = p := by omega
        obtain ⟨sgj2, hget2j, hlen2⟩ :=
          containingIdx_boundary doc (p - 1) i2 (by rw [hsucc]; exact hci2)
            j oj hcj
        rw [hget2j] at hgetj
        cases hgetj
        exact hlen2
    rw [hl]
    by_cases htj : getDocSegmentKind (doc.get? j) = .text
    · rw [if_pos htj, if_pos htj]
      rw [hgetj] at htj
      obtain ⟨c, hkc⟩ := kind_text_of_getDocSegmentKind sgj htj
      simp only [hgetj, segLenOpt, Prod.mk.injEq]
      exact ⟨trivial, by omega⟩
    · rw [if_neg htj, if_neg htj]
      rw [hgetj] at htj
      have hne2 : ∀ c2, sgj.kind ≠ .text c2 := by
        intro c2 hk2
        exact htj (getDocSegmentKind_of_text sgj c2 hk2)
      have := segLen_of_ne_text sgj hne2
      have hoj0 : oj = 0 := by omega
      simp [hoj0]

/-- C9 witness: the mapping evaluated at the end-marker boundary position of
`doc1` with the well-formed reference segment. -/
theorem positionToNodeOffset_matches_spec_witness :
    positionToNodeOffset doc1 (getSegmentAndOffset doc1 3).1 3 =
      caretTargetSpec doc1 3 :=
  positionToNodeOffset_matches_spec doc1 (getSegmentAndOffset doc1 3).1 3 rfl
    (by decide)

/-! ### Scan lemmas for `FlowDocument.remove` -/

theorem removeScan_cons_begin (doc : List Seg) (e p : Nat)
    (sg : Seg) (rest : List (Nat × Seg)) (s : Nat) (ops : List RemoveOp)
    (bid : SegId) (tags : List String) (hk : sg.kind = .beginTags bid tags) :
    removeScan doc e ((p, sg) :: rest) s ops =
      if endPosForBegin doc bid < e then removeScan doc e rest s ops
      else removeScan doc e rest s
        (ops ++ [⟨endPosForBegin doc bid, endPosForBegin doc bid + 1⟩]) := by
  simp [removeScan, hk]

theorem removeScan_cons_end (doc : List Seg) (e p : Nat)
    (sg : Seg) (rest : List (Nat × Seg)) (s : Nat) (ops : List RemoveOp)
    (eid : SegId) (hk : sg.kind = .endTags eid) :
    removeScan doc e ((p, sg) :: rest) s ops =
      if s ≤ beginPosForEnd doc eid then removeScan doc e rest s ops
      else removeScan doc e rest (p + 1) (ops ++ [⟨s, p⟩]) := by
  simp [removeScan, hk]

theorem removeScan_cons_other (doc : List Seg) (e p : Nat)
    (sg : Seg) (rest : List (Nat × Seg)) (s : Nat) (ops : List RemoveOp)
    (hb : ∀ bid tags, sg.kind ≠ .beginTags bid tags)
    (hend : ∀ eid, sg.kind ≠ .endTags eid) :
    removeScan doc e ((p, sg) :: rest) s ops = removeScan doc e rest s ops := by
  cases hk : sg.kind with
  | text c => simp [removeScan, hk]
  | paragraph => simp [removeScan, hk]
  | lineBreak => simp [removeScan, hk]
  | inclusion => simp [removeScan, hk]
  | beginTags a b => exact absurd hk (hb a b)
  | endTags a => exact absurd hk (hend a)

theorem removeScan_mem_mono (doc : List Seg) (e : Nat) :
    ∀ (l : List (Nat × Seg)) (s : Nat) (ops : List RemoveOp) (op : RemoveOp),
      op ∈ ops → op ∈ (removeScan doc e l s ops).1 := by
  intro l
  induction l with
  | nil => intro s ops op h; exact h
  | cons pe rest ih =>
    intro s ops op h
    obtain ⟨p, sg⟩ := pe
    cases hk : sg.kind with
    | text c =>
      rw [removeScan_cons_other doc e p sg rest s ops (by simp [hk]) (by simp [hk])]
      exact ih s ops op h
    | paragraph =>
      rw [removeScan_cons_other doc e p sg rest s ops (by simp [hk]) (by simp [hk])]
      exact ih s ops op h
    | lineBreak =>
      rw [removeScan_cons_other doc e p sg rest s ops (by simp [hk]) (by simp [hk])]
      exact ih s ops op h
    | inclusion =>
      rw [removeScan_cons_other doc e p sg rest s ops (by simp [hk]) (by simp [hk])]
      exact ih s ops op h
    | beginTags bid tags =>
      rw [removeScan_cons_begin doc e p sg rest s ops bid tags hk]
      split_ifs
      · exact ih s ops op h
      · exact ih s _ op (List.mem_append_left _ h)
    | endTags eid =>
      rw [removeScan_cons_end doc e p sg rest s ops eid hk]
      split_ifs
      · exact ih s ops op h
      · exact ih (p + 1) _ op (List.mem_append_left _ h)

theorem removeScan_append (doc : List Seg) (e : Nat) :
    ∀ (l1 l2 : List (Nat × Seg)) (s : Nat) (ops : List RemoveOp),
      removeScan doc e (l1 ++ l2) s ops =
        removeScan doc e l2 (removeScan doc e l1 s ops).2
          (removeScan doc e l1 s ops).1 := by
  intro l1
  induction l1 with
  | nil => intro l2 s ops; rfl
  | cons pe rest ih =>
    intro l2 s ops
    obtain ⟨p, sg⟩ := pe
    cases hk : sg.kind with
    | text c =>
      rw [List.cons_append,
        removeScan_cons_other doc e p sg (rest ++ l2) s ops (by simp [hk]) (by simp [hk]),
        removeScan_cons_other doc e p sg rest s ops (by simp [hk]) (by simp [hk])]
      exact ih l2 s ops
    | paragraph =>
      rw [List.cons_append,
        removeScan_cons_other doc e p sg (rest ++ l2) s ops (by simp [hk]) (by simp [hk]),
        removeScan_cons_other doc e p sg rest s ops (by simp [hk]) (by simp [hk])]
      exact ih l2 s ops
    | lineBreak =>
      rw [List.cons_append,
        removeScan_cons_other doc e p sg (rest ++ l2) s ops (by simp [hk]) (by simp [hk]),
        removeScan_cons_other doc e p sg rest s ops (by simp [hk]) (by simp [hk])]
      exact ih l2 s ops
    | inclusion =>
      rw [List.cons_append,
        removeScan_cons_other doc e p sg (rest ++ l2) s ops (by simp [hk]) (by simp [hk]),
        removeScan_cons_other doc e p sg rest s ops (by simp [hk]) (by simp [hk])]
      exact ih l2 s ops
    | beginTags bid tags =>
      rw [List.cons_append,
        removeScan_cons_begin doc e p sg (rest ++ l2) s ops bid tags hk,
        removeScan_cons_begin doc e p sg rest s ops bid tags hk]
      split_ifs
      · exact ih l2 s ops
      · exact ih l2 s _
    | endTags eid =>
      rw [List.cons_append,
        removeScan_cons_end doc e p sg (rest ++ l2) s ops eid hk,
        removeScan_cons_end doc e p sg rest s ops eid hk]
      split_ifs
      · exact ih l2 s ops
      · exact ih l2 (p + 1) _

theorem mem_removeOpsPre_of_scan (doc : List Seg) (s e : Nat) (op : RemoveOp)
    (h : op ∈ (removeScan doc e (visitList doc s e) s []).1) :
    op ∈ removeOpsPre doc s e := by
  have h2 : removeOpsPre doc s e =
      (if (removeScan doc e (visitList doc s e) s []).2 ≠ e
        then (removeScan doc e (visitList doc s e) s []).1 ++
          [⟨(removeScan doc e (visitList doc s e) s []).2, e⟩]
        else (removeScan doc e (visitList doc s e) s []).1) := rfl
  rw [h2]
  split_ifs
  · exact List.mem_append_left _ h
  · exact h

theorem mem_removeOps_iff (doc : List Seg) (s e : Nat) (op : RemoveOp) :
    op ∈ removeOps doc s e ↔ op ∈ removeOpsPre doc s e := by
  unfold removeOps
  exact (List.perm_insertionSort opGE _).mem_iff

/-! ### C1: a begin tag's surviving end tag is also removed -/

theorem removeScan_mem_begin (doc : List Seg) (e : Nat) :
    ∀ (l : List (Nat × Seg)) (s : Nat) (ops : List RemoveOp)
      (p : Nat) (bid : SegId) (tags : List String) (cl : Option String),
      (p, ⟨.beginTags bid tags, cl⟩) ∈ l →
      ¬ endPosForBegin doc bid < e →
      (⟨endPosForBegin doc bid, endPosForBegin doc bid + 1⟩ : RemoveOp) ∈
        (removeScan doc e l s ops).1 := by
  intro l
  induction l with
  | nil => intro s ops p bid tags cl h; exact absurd h (by simp)
  | cons pe rest ih =>
    intro s ops p bid tags cl hmem hep
    rcases List.mem_cons.mp hmem with heq | htail
    · subst heq
      rw [removeScan_cons_begin doc e p _ rest s ops bid tags rfl, if_neg hep]
      exact removeScan_mem_mono doc e rest s _ _
        (List.mem_append_right _ (by simp))
    · obtain ⟨q, sg⟩ := pe
      cases hk : sg.kind with
      | text c =>
        rw [removeScan_cons_other doc e q sg rest s ops (by simp [hk]) (by simp [hk])]
        exact ih s ops p bid tags cl htail hep
      | paragraph =>
        rw [removeScan_cons_other doc e q sg rest s ops (by simp [hk]) (by simp [hk])]
        exact ih s ops p bid tags cl htail hep
      | lineBreak =>
        rw [removeScan_cons_other doc e q sg rest s ops (by simp [hk]) (by simp [hk])]
        exact ih s ops p bid tags cl htail hep
      | inclusion =>
        rw [removeScan_cons_other doc e q sg rest s ops (by simp [hk]) (by simp [hk])]
        exact ih s ops p bid tags cl htail hep
      | beginTags bid2 tags2 =>
        rw [removeScan_cons_begin doc e q sg rest s ops bid2 tags2 hk]
        split_ifs
        · exact ih s ops p bid tags cl htail hep
        · exact ih s _ p bid tags cl htail hep
      | endTags eid =>
        rw [removeScan_cons_end doc e q sg rest s ops eid hk]
        split_ifs
        · exact ih s ops p bid tags cl htail hep
        · exact ih (q + 1) _ p bid tags cl htail hep

/-- C1: whenever `remove(s, e)` scans a begin tag marker inside `[s, e)`
whose matching end tag lies at a position `≥ e`, the submitted op group
contains the one-unit removal op for that end tag position; and on the
spec's scenario document (`Begin` at 0, `"AB"` at `[1, 3)`, `End` at 3),
`removeRange(0, 2)` removes the Begin, the text unit at offset 0 and the End
marker, leaving no orphaned end marker. -/
theorem remove_schedules_orphan_end_removal :
    (∀ (doc : List Seg) (s e p : Nat) (bid : SegId) (tags : List String)
        (cl : Option String),
      (p, ⟨.beginTags bid tags, cl⟩) ∈ visitList doc s e →
      e ≤ endPosForBegin doc bid →
      (⟨endPosForBegin doc bid, endPosForBegin doc bid + 1⟩ : RemoveOp) ∈
        removeOps doc s e) ∧
      removeOps doc1 0 2 = [⟨3, 4⟩, ⟨0, 2⟩] ∧
      applyRemoveOps doc1 (removeOps doc1 0 2) = [⟨.text ['B'], none⟩] := by
  refine ⟨?_, by decide, by decide⟩
  intro doc s e p bid tags cl hmem hep
  rw [mem_removeOps_iff]
  exact mem_removeOpsPre_of_scan doc s e _
    (removeScan_mem_begin doc e (visitList doc s e) s [] p bid tags cl hmem
      (Nat.not_lt.mpr hep))

/-- C1 witness: the general part evaluated on the scenario document, where
the end tag sits at position 3 ≥ 2. -/
theorem remove_schedules_orphan_end_removal_witness :
    (0, (⟨.beginTags (beginIdFor tagX) ["b"], none⟩ : Seg)) ∈ visitList doc1 0 2 ∧
      2 ≤ endPosForBegin doc1 (beginIdFor tagX) ∧
      (⟨endPosForBegin doc1 (beginIdFor tagX),
        endPosForBegin doc1 (beginIdFor tagX) + 1⟩ : RemoveOp) ∈
        removeOps doc1 0 2 :=
  ⟨by decide, by decide,
    remove_schedules_orphan_end_removal.1 doc1 0 2 0 (beginIdFor tagX) ["b"]
      none (by decide) (by decide)⟩

/-! ### C2: an end tag with an excluded begin tag is preserved -/

/-- C2: when the scan of `remove(s, e)` reaches an end tag marker at
position `p` whose matching begin tag lies before the active `start` (the
value `s1` reached after the preceding entries), the scan flushes a removal
op for `[s1, p)` and continues past the marker with the active start
advanced to `p + 1`; that flushed op is in the submitted group; and after
the scan a final removal op for the remaining `[start, e)` is appended
exactly when that range is non-empty. -/
theorem remove_preserves_end_marker_with_excluded_begin
    (doc : List Seg) (s e p : Nat) (eid : SegId) (cl : Option String)
    (pre post : List (Nat × Seg)) (ops1 : List RemoveOp) (s1 : Nat)
    (hsplit : visitList doc s e = pre ++ (p, ⟨.endTags eid, cl⟩) :: post)
    (hpre : removeScan doc e pre s [] = (ops1, s1))
    (hbp : beginPosForEnd doc eid < s1) :
    removeScan doc e (visitList doc s e) s [] =
        removeScan doc e post (p + 1) (ops1 ++ [⟨s1, p⟩]) ∧
      (⟨s1, p⟩ : RemoveOp) ∈ removeOps doc s e ∧
      ∀ opsF sF, removeScan doc e (visitList doc s e) s [] = (opsF, sF) →
        removeOpsPre doc s e = if sF ≠ e then opsF ++ [⟨sF, e⟩] else opsF := by
  have hstep : removeScan doc e (visitList doc s e) s [] =
      removeScan doc e post (p + 1) (ops1 ++ [⟨s1, p⟩]) := by
    rw [hsplit, removeScan_append, hpre]
    rw [removeScan_cons_end doc e p _ post s1 ops1 eid rfl,
      if_neg (Nat.not_le.mpr hbp)]
  refine ⟨hstep, ?_, ?_⟩
  · rw [mem_removeOps_iff]
    refine mem_removeOpsPre_of_scan doc s e _ ?_
    rw [hstep]
    exact removeScan_mem_mono doc e post (p + 1) _ _
      (List.mem_append_right _ (by simp))
  · intro opsF sF hF
    have h2 : removeOpsPre doc s e =
        (if (removeScan doc e (visitList doc s e) s []).2 ≠ e
          then (removeScan doc e (visitList doc s e) s []).1 ++
            [⟨(removeScan doc e (visitList doc s e) s []).2, e⟩]
          else (removeScan doc e (visitList doc s e) s []).1) := rfl
    rw [h2, hF]

/-- C2 witness: on the scenario document, `removeRange(1, 4)` reaches the
end tag at 3 whose begin tag (position 0) precedes the active start 1:
the scan flushes `[1, 3)`, advances to 4, and no final op is appended since
the remaining range `[4, 4)` is empty. -/
theorem remove_preserves_end_marker_with_excluded_begin_witness :
    (removeScan doc1 4 (visitList doc1 1 4) 1 [] =
        removeScan doc1 4 [] (3 + 1) ([] ++ [⟨1, 3⟩]) ∧
      (⟨1, 3⟩ : RemoveOp) ∈ removeOps doc1 1 4) ∧
      removeOpsPre doc1 1 4 =
        if (4 : Nat) ≠ 4 then [⟨1, 3⟩] ++ [⟨4, 4⟩] else [⟨1, 3⟩] := by
  have h := remove_preserves_end_marker_with_excluded_begin doc1 1 4 3
    (endIdFor tagX) none [(1, ⟨.text ['A', 'B'], none⟩)] [] [] 1
    (by decide) (by decide) (by decide)
  exact ⟨⟨h.1, h.2.1⟩, h.2.2 [⟨1, 3⟩] 4 (by decide)⟩

/-! ### C6: toggleCssClass -/

/-- C6 (counterexample): toggling `"x"` over the whole span leaves the second
half *without* `"x"` — its class list is still absent — contradicting the
claim that the second half ends up carrying `"x"`.  The pre-visit threads
one `(toAdd, toRemove)` state across the whole range, so a class present on
any sub-span is removed everywhere and added nowhere. -/
theorem toggleCssClass_per_subspan_counterexample :
    (toggleCssClass doc6 0 4 ["x"]).1.get? 1 = some ⟨.text ['C', 'D'], none⟩ ∧
      ¬ "x" ∈ splitTokens (none : Option String) := by
  decide

/-- C6 (amended): `toggleCssClass` decides presence of each class across the
*entire* range: a class already present on some sub-span is moved from the
add set to the remove set and removed from the whole range, and only classes
present nowhere are added.  On the scenario document the first half loses
`"x"`, the second half stays without it, and exactly one annotation call is
issued — for the one sub-span whose class list actually changes. -/
theorem toggleCssClass_global_toggle :
    toggleCssClass doc6 0 4 ["x"] =
      ([⟨.text ['A', 'B'], some ""⟩, ⟨.text ['C', 'D'], none⟩],
        [⟨0, 2, some ""⟩]) := by
  decide

/-! ### C3: the submitted group is sorted and disjoint -/

theorem epsOf_cons_begin (doc : List Seg) (p : Nat) (sg : Seg)
    (rest : List (Nat × Seg)) (bid : SegId) (tags : List String)
    (hk : sg.kind = .beginTags bid tags) :
    epsOf doc ((p, sg) :: rest) = endPosForBegin doc bid :: epsOf doc rest := by
  simp [epsOf, hk]

theorem epsOf_cons_other (doc : List Seg) (p : Nat) (sg : Seg)
    (rest : List (Nat × Seg)) (hb : ∀ bid tags, sg.kind ≠ .beginTags bid tags) :
    epsOf doc ((p, sg) :: rest) = epsOf doc rest := by
  cases hk : sg.kind with
  | text c => simp [epsOf, hk]
  | paragraph => simp [epsOf, hk]
  | lineBreak => simp [epsOf, hk]
  | inclusion => simp [epsOf, hk]
  | beginTags a b => exact absurd hk (hb a b)
  | endTags a => simp [epsOf, hk]

theorem visitFrom_mem_bounds (doc : List Seg) :
    ∀ (pos s e : Nat) (pe : Nat × Seg), pe ∈ visitFrom doc pos s e →
      pe.1 < e ∧ s < pe.1 + segLen pe.2 ∧ pos ≤ pe.1 := by
  induction doc with
  | nil => intro pos s e pe h; simp [visitFrom] at h
  | cons sg rest ih =>
    intro pos s e pe h
    simp only [visitFrom] at h
    rcases List.mem_append.mp h with h1 | h2
    · split_ifs at h1 with hc
      · simp at h1
        subst h1
        exact ⟨hc.1, hc.2, le_refl _⟩
      · simp at h1
    · have := ih (pos + segLen sg) s e pe h2
      exact ⟨this.1, this.2.1, by omega⟩

theorem visitFrom_chain (doc : List Seg) :
    ∀ (pos s e : Nat),
      List.Pairwise (fun (a b : Nat × Seg) => a.1 + segLen a.2 ≤ b.1)
        (visitFrom doc pos s e) := by
  induction doc with
  | nil => intro pos s e; simp [visitFrom]
  | cons sg rest ih =>
    intro pos s e
    simp only [visitFrom]
    by_cases hc : pos < e ∧ s < pos + segLen sg
    · rw [if_pos hc]
      simp only [List.singleton_append]
      refine List.Pairwise.cons ?_ (ih (pos + segLen sg) s e)
      intro b hb
      exact (visitFrom_mem_bounds rest (pos + segLen sg) s e b hb).2.2
    · rw [if_neg hc]
      simp only [List.nil_append]
      exact ih (pos + segLen sg) s e

theorem visitList_mem_bounds (doc : List Seg) (s e : Nat) (pe : Nat × Seg)
    (h : pe ∈ visitList doc s e) : pe.1 < e ∧ s < pe.1 + segLen pe.2 := by
  unfold visitList at h
  split_ifs at h
  · have := visitFrom_mem_bounds doc 0 s e pe h
    exact ⟨this.1, this.2.1⟩
  · simp at h

theorem visitList_chain (doc : List Seg) (s e : Nat) :
    List.Pairwise (fun (a b : Nat × Seg) => a.1 + segLen a.2 ≤ b.1)
      (visitList doc s e) := by
  unfold visitList
  split_ifs
  · exact visitFrom_chain doc 0 s e
  · simp

/-- The scan invariant behind the disjointness of the removal group: every
accumulated op either ends at or before both the active start and the range
end (a flushed or pending removal) or is a one-unit end-tag removal at or
past the range end; all accumulated ops are pairwise disjoint. -/
theorem removeScan_invariant (doc : List Seg) (e : Nat) :
    ∀ (l : List (Nat × Seg)) (s : Nat) (ops : List RemoveOp),
      (∀ pe ∈ l, pe.1 < e) →
      List.Pairwise (fun (a b : Nat × Seg) => a.1 + segLen a.2 ≤ b.1) l →
      (∀ pe ∈ l, isEndKind pe.2 = true → s ≤ pe.1 + 1) →
      (∀ op ∈ ops,
        (op.pos2 ≤ s ∧ op.pos2 ≤ e) ∨ (e ≤ op.pos1 ∧ op.pos2 = op.pos1 + 1)) →
      List.Pairwise opDisjoint ops →
      (∀ op ∈ ops, e ≤ op.pos1 → op.pos2 = op.pos1 + 1 →
        ∀ ep ∈ epsOf doc l, op.pos1 ≠ ep) →
      List.Pairwise (fun a b => a ≠ b) (epsOf doc l) →
      (∀ op ∈ (removeScan doc e l s ops).1,
          (op.pos2 ≤ (removeScan doc e l s ops).2 ∧ op.pos2 ≤ e) ∨
            (e ≤ op.pos1 ∧ op.pos2 = op.pos1 + 1)) ∧
        List.Pairwise opDisjoint (removeScan doc e l s ops).1 := by
  intro l
  induction l with
  | nil =>
    intro s ops _ _ _ hops hdisj _ _
    exact ⟨hops, hdisj⟩
  | cons pe rest ih =>
    intro s ops hlt hchain hend hops hdisj hfresh hpair
    obtain ⟨p, sg⟩ := pe
    have hltp : p < e := hlt (p, sg) (List.mem_cons_self _ _)
    cases hk : sg.kind with
    | text c =>
      rw [removeScan_cons_other doc e p sg rest s ops (by simp [hk]) (by simp [hk])]
      have heps := epsOf_cons_other doc p sg rest (by simp [hk])
      exact ih s ops (fun q hq => hlt q (List.mem_cons_of_mem _ hq)) hchain.of_cons
        (fun q hq hq2 => hend q (List.mem_cons_of_mem _ hq) hq2) hops hdisj
        (fun op hop h1 h2 ep hep =>
          hfresh op hop h1 h2 ep (by rw [heps]; exact hep))
        (by rw [heps] at hpair; exact hpair)
    | paragraph =>
      rw [removeScan_cons_other doc e p sg rest s ops (by simp [hk]) (by simp [hk])]
      have heps := epsOf_cons_other doc p sg rest (by simp [hk])
      exact ih s ops (fun q hq => hlt q (List.mem_cons_of_mem _ hq)) hchain.of_cons
        (fun q hq hq2 => hend q (List.mem_cons_of_mem _ hq) hq2) hops hdisj
        (fun op hop h1 h2 ep hep =>
          hfresh op hop h1 h2 ep (by rw [heps]; exact hep))
        (by rw [heps] at hpair; exact hpair)
    | lineBreak =>
      rw [removeScan_cons_other doc e p sg rest s ops (by simp [hk]) (by simp [hk])]
      have heps := epsOf_cons_other doc p sg rest (by simp [hk])
      exact ih s ops (fun q hq => hlt q (List.mem_cons_of_mem _ hq)) hchain.of_cons
        (fun q hq hq2 => hend q (List.mem_cons_of_mem _ hq) hq2) hops hdisj
        (fun op hop h1 h2 ep hep =>
          hfresh op hop h1 h2 ep (by rw [heps]; exact hep))
        (by rw [heps] at hpair; exact hpair)
    | inclusion =>
      rw [removeScan_cons_other doc e p sg rest s ops (by simp [hk]) (by simp [hk])]
      have heps := epsOf_cons_other doc p sg rest (by simp [hk])
      exact ih s ops (fun q hq => hlt q (List.mem_cons_of_mem _ hq)) hchain.of_cons
        (fun q hq hq2 => hend q (List.mem_cons_of_mem _ hq) hq2) hops hdisj
        (fun op hop h1 h2 ep hep =>
          hfresh op hop h1 h2 ep (by rw [heps]; exact hep))
        (by rw [heps] at hpair; exact hpair)
    | beginTags bid tags =>
      have heps := epsOf_cons_begin doc p sg rest bid tags hk
      rw [removeScan_cons_begin doc e p sg rest s ops bid tags hk]
      have hpair2 : List.Pairwise (fun a b => a ≠ b)
          (endPosForBegin doc bid :: epsOf doc rest) := by
        rw [heps] at hpair
        exact hpair
      by_cases hep : endPosForBegin doc bid < e
      · rw [if_pos hep]
        exact ih s ops (fun q hq => hlt q (List.mem_cons_of_mem _ hq)) hchain.of_cons
          (fun q hq hq2 => hend q (List.mem_cons_of_mem _ hq) hq2) hops hdisj
          (fun op hop h1 h2 ep2 hep2 =>
            hfresh op hop h1 h2 ep2 (by rw [heps]; exact List.mem_cons_of_mem _ hep2))
          hpair2.of_cons
      · rw [if_neg hep]
        have he2 : e ≤ endPosForBegin doc bid := Nat.not_lt.mp hep
        have hEPfresh : ∀ ep2 ∈ epsOf doc rest, endPosForBegin doc bid ≠ ep2 :=
          fun ep2 h2 => List.rel_of_pairwise_cons hpair2 h2
        refine ih s (ops ++ [⟨endPosForBegin doc bid, endPosForBegin doc bid + 1⟩])
          (fun q hq => hlt q (List.mem_cons_of_mem _ hq)) hchain.of_cons
          (fun q hq hq2 => hend q (List.mem_cons_of_mem _ hq) hq2) ?_ ?_ ?_
          hpair2.of_cons
        · intro op hop
          rcases List.mem_append.mp hop with h1 | h1
          · exact hops op h1
          · simp at h1
            subst h1
            exact Or.inr ⟨he2, rfl⟩
        · rw [List.pairwise_append]
          refine ⟨hdisj, List.pairwise_singleton _ _, ?_⟩
          intro a ha b hb
          simp at hb
          subst hb
          rcases hops a ha with ⟨h1, h2⟩ | ⟨h1, h2⟩
          · show min a.pos2 (endPosForBegin doc bid + 1) ≤
              max a.pos1 (endPosForBegin doc bid)
            omega
          · have hane : a.pos1 ≠ endPosForBegin doc bid :=
              hfresh a ha h1 h2 (endPosForBegin doc bid)
                (by rw [heps]; exact List.mem_cons_self _ _)
            show min a.pos2 (endPosForBegin doc bid + 1) ≤
              max a.pos1 (endPosForBegin doc bid)
            omega
        · intro op hop h1 h2 ep2 hep2
          rcases List.mem_append.mp hop with h3 | h3
          · exact hfresh op h3 h1 h2 ep2 (by rw [heps]; exact List.mem_cons_of_mem _ hep2)
          · simp at h3
            subst h3
            exact hEPfresh ep2 hep2
    | endTags eid =>
      have heps := epsOf_cons_other doc p sg rest (by simp [hk])
      rw [removeScan_cons_end doc e p sg rest s ops eid hk]
      have hpair2 : List.Pairwise (fun a b => a ≠ b) (epsOf doc rest) := by
        rw [heps] at hpair
        exact hpair
      by_cases hsb : s ≤ beginPosForEnd doc eid
      · rw [if_pos hsb]
        exact ih s ops (fun q hq => hlt q (List.mem_cons_of_mem _ hq)) hchain.of_cons
          (fun q hq hq2 => hend q (List.mem_cons_of_mem _ hq) hq2) hops hdisj
          (fun op hop h1 h2 ep2 hep2 =>
            hfresh op hop h1 h2 ep2 (by rw [heps]; exact hep2))
          hpair2
      · rw [if_neg hsb]
        have hsp1 : s ≤ p + 1 :=
          hend (p, sg) (List.mem_cons_self _ _) (by simp [isEndKind, hk])
        have hsg1 : segLen sg = 1 := by
          unfold segLen
          rw [hk]
        have hnext : ∀ b ∈ rest, p + 1 ≤ b.1 := by
          intro b hb
          have h3 : p + segLen sg ≤ b.1 := List.rel_of_pairwise_cons hchain hb
          omega
        refine ih (p + 1) (ops ++ [⟨s, p⟩])
          (fun q hq => hlt q (List.mem_cons_of_mem _ hq)) hchain.of_cons ?_ ?_ ?_ ?_
          hpair2
        · intro q hq _
          have := hnext q hq
          omega
        · intro op hop
          rcases List.mem_append.mp hop with h1 | h1
          · rcases hops op h1 with ⟨h2, h3⟩ | h2
            · exact Or.inl ⟨by omega, h3⟩
            · exact Or.inr h2
          · simp at h1
            subst h1
            refine Or.inl ⟨?_, ?_⟩
            · show p ≤ p + 1
              omega
            · show p ≤ e
              omega
        · rw [List.pairwise_append]
          refine ⟨hdisj, List.pairwise_singleton _ _, ?_⟩
          intro a ha b hb
          simp at hb
          subst hb
          rcases hops a ha with ⟨h1, h2⟩ | ⟨h1, h2⟩
          · show min a.pos2 p ≤ max a.pos1 s
            omega
          · show min a.pos2 p ≤ max a.pos1 s
            omega
        · intro op hop h1 h2 ep2 hep2
          rcases List.mem_append.mp hop with h3 | h3
          · exact hfresh op h3 h1 h2 ep2 (by rw [heps]; exact hep2)
          · simp at h3
            subst h3
            have h4 : e ≤ s := h1
            have h5 : p = s + 1 := h2
            omega

/-- The un-sorted op list of `remove` is pairwise disjoint whenever the begin
tags in the visited range have pairwise distinct matching-end positions. -/
theorem removeOpsPre_disjoint (doc : List Seg) (s e : Nat)
    (hpair : List.Pairwise (fun a b => a ≠ b) (epsOf doc (visitList doc s e))) :
    List.Pairwise opDisjoint (removeOpsPre doc s e) := by
  have hinv := removeScan_invariant doc e (visitList doc s e) s []
    (fun pe hpe => (visitList_mem_bounds doc s e pe hpe).1)
    (visitList_chain doc s e)
    (fun pe hpe hk => by
      have := (visitList_mem_bounds doc s e pe hpe).2
      have hk1 : segLen pe.2 = 1 := by
        unfold isEndKind at hk
        unfold segLen
        cases hkk : pe.2.kind with
        | text c => rw [hkk] at hk; simp at hk
        | paragraph => rfl
        | lineBreak => rfl
        | inclusion => rfl
        | beginTags a b => rfl
        | endTags a => rfl
      omega)
    (by simp) List.Pairwise.nil (by simp) hpair
  have h2 : removeOpsPre doc s e =
      (if (removeScan doc e (visitList doc s e) s []).2 ≠ e
        then (removeScan doc e (visitList doc s e) s []).1 ++
          [⟨(removeScan doc e (visitList doc s e) s []).2, e⟩]
        else (removeScan doc e (visitList doc s e) s []).1) := rfl
  rw [h2]
  split_ifs
  · rw [List.pairwise_append]
    refine ⟨hinv.2, List.pairwise_singleton _ _, ?_⟩
    intro a ha b hb
    simp at hb
    subst hb
    rcases hinv.1 a ha with ⟨h3, h4⟩ | ⟨h3, h4⟩
    · show min a.pos2 e ≤
        max a.pos1 (removeScan doc e (visitList doc s e) s []).2
      omega
    · show min a.pos2 e ≤
        max a.pos1 (removeScan doc e (visitList doc s e) s []).2
      omega
  · exact hinv.2

/-- C3: `remove(s, e)` submits all accumulated removal ops to the store as a
single group message (one `groupOperation` call with type `GROUP`), with the
ops sorted in descending order of their start positions, and — whenever the
begin tags in the range have pairwise distinct matching-end positions, as
holds for well-formed matched pairs — the ranges of the submitted ops are
pairwise disjoint. -/
theorem remove_submits_sorted_disjoint_atomic_group (doc : List Seg) (s e : Nat)
    (hpair : List.Pairwise (fun a b => a ≠ b) (epsOf doc (visitList doc s e))) :
    removeGroup doc s e = ⟨removeOps doc s e, .GROUP⟩ ∧
      List.Pairwise opGE (removeOps doc s e) ∧
      List.Pairwise opDisjoint (removeOps doc s e) := by
  refine ⟨rfl, ?_, ?_⟩
  · exact List.sorted_insertionSort opGE (removeOpsPre doc s e)
  · have hperm := List.perm_insertionSort opGE (removeOpsPre doc s e)
    have hsymm : ∀ {x y : RemoveOp}, opDisjoint x y → opDisjoint y x := by
      intro x y h
      unfold opDisjoint at h ⊢
      omega
    exact (hperm.pairwise_iff hsymm).mpr (removeOpsPre_disjoint doc s e hpair)

/-- C3 witness: the group properties evaluated for `removeRange(0, 2)` on the
scenario document. -/
theorem remove_submits_sorted_disjoint_atomic_group_witness :
    removeGroup doc1 0 2 = ⟨removeOps doc1 0 2, .GROUP⟩ ∧
      List.Pairwise opGE (removeOps doc1 0 2) ∧
      List.Pairwise opDisjoint (removeOps doc1 0 2) :=
  remove_submits_sorted_disjoint_atomic_group doc1 0 2 (by decide)

end FlowSpec
